import Mathlib

/-!
Shallow embedding of the authoritative game-state server in
`buildnow.js` (served from `assets/firebase-auth.js`): world store,
collision (hit-scan) math, and the socket event handlers
(connect / move / shoot / placeBuild / disconnect) together with the
periodic broadcast tick.  JS numbers are modelled as rationals;
`Math.sqrt` is modelled as an explicit oracle argument `sq : ℚ → ℚ`;
`Math.random()` draws are explicit rational arguments of the commands.
-/

namespace BuildNow

/-- Source: `const ARENA_LIMIT = 50`. -/
def ARENA_LIMIT : ℚ := 50

/-- Source: `clamp(v)` returns `Math.max(-ARENA_LIMIT, Math.min(ARENA_LIMIT, v))`. -/
def clamp (v : ℚ) : ℚ := max (-ARENA_LIMIT) (min ARENA_LIMIT v)

/-- A player record `{x,y,z,rotationY,health}` stored in `world.players`. -/
structure Player where
  x : ℚ
  y : ℚ
  z : ℚ
  rotationY : ℚ
  health : ℚ
deriving DecidableEq

/-- A build record `{id,ownerId,type,x,y,z,rotY}` stored in `world.builds`. -/
structure Build where
  id : ℕ
  ownerId : String
  type : String
  x : ℚ
  y : ℚ
  z : ℚ
  rotY : ℚ
deriving DecidableEq

/-- The world: `players` is the string-keyed object (modelled as an
association list in key-insertion order, matching `Object.entries`
iteration), `builds` the array, `nextBuildId` the module counter. -/
structure World where
  players : List (String × Player)
  builds : List Build
  nextBuildId : ℕ
deriving DecidableEq

/-- The state at server start: no players, no builds, `nextBuildId = 1`. -/
def initialWorld : World := ⟨[], [], 1⟩

/-- Reading `world.players[sid]` (first binding of the key, `none` when absent). -/
def lookupP (sid : String) : List (String × Player) → Option Player
  | [] => none
  | (id, p) :: rest => if id = sid then some p else lookupP sid rest

/-- Assignment `world.players[sid] = v`: overwrite in place when the key exists
(JS objects keep the key's enumeration position), append otherwise. -/
def setP (sid : String) (v : Player) : List (String × Player) → List (String × Player)
  | [] => [(sid, v)]
  | (id, p) :: rest => if id = sid then (id, v) :: rest else (id, p) :: setP sid v rest

/-- Source: `delete world.players[sid]`. -/
def removeP (sid : String) (l : List (String × Player)) : List (String × Player) :=
  l.filter (fun e => e.1 ≠ sid)

/-- The ray `{ox,oy,oz,dx,dy,dz}` built in the shoot handler. -/
structure Ray where
  ox : ℚ
  oy : ℚ
  oz : ℚ
  dx : ℚ
  dy : ℚ
  dz : ℚ
deriving DecidableEq

/-- Source: `a = ray.dx*ray.dx + ray.dy*ray.dy + ray.dz*ray.dz`. -/
def hitA (ray : Ray) : ℚ := ray.dx * ray.dx + ray.dy * ray.dy + ray.dz * ray.dz

/-- Source: `b = 2 * (ocx*ray.dx + ocy*ray.dy + ocz*ray.dz)` where
`oc = origin − centre` and the centre is `(pl.x, pl.y + 0.5, pl.z)`. -/
def hitB (ray : Ray) (pl : Player) : ℚ :=
  2 * ((ray.ox - pl.x) * ray.dx + (ray.oy - (pl.y + 1/2)) * ray.dy +
       (ray.oz - pl.z) * ray.dz)

/-- Source: `c = ocx*ocx + ocy*ocy + ocz*ocz - r*r` with radius `r = 0.5`. -/
def hitC (ray : Ray) (pl : Player) : ℚ :=
  (ray.ox - pl.x) * (ray.ox - pl.x) + (ray.oy - (pl.y + 1/2)) * (ray.oy - (pl.y + 1/2)) +
    (ray.oz - pl.z) * (ray.oz - pl.z) - (1/2) * (1/2)

/-- Source: `disc = b*b - 4*a*c`. -/
def hitDisc (ray : Ray) (pl : Player) : ℚ :=
  hitB ray pl * hitB ray pl - 4 * hitA ray * hitC ray pl

/-- Source: `t = (-b - Math.sqrt(disc)) / (2*a)`, with `Math.sqrt` modelled by the
oracle `sq`.  (For `a = 0` rational division yields `0`, and the JS code
yields `NaN`; both fail the `t > 0` test, so the observable non-hit
outcome agrees.) -/
def hitT (sq : ℚ → ℚ) (ray : Ray) (pl : Player) : ℚ :=
  (-(hitB ray pl) - sq (hitDisc ray pl)) / (2 * hitA ray)

/-- The `for (const [id, pl] of Object.entries(world.players))` loop of the
shoot handler, with accumulator `none` standing for
`hitId = null, closest = Infinity` and `some (id, t)` for the current best. -/
def hitLoop (sq : ℚ → ℚ) (shooter : String) (ray : Ray) :
    List (String × Player) → Option (String × ℚ) → Option (String × ℚ)
  | [], acc => acc
  | (id, pl) :: rest, acc =>
    if id = shooter then hitLoop sq shooter ray rest acc
    else if hitDisc ray pl < 0 then hitLoop sq shooter ray rest acc
    else
      match acc with
      | none =>
        if 0 < hitT sq ray pl then hitLoop sq shooter ray rest (some (id, hitT sq ray pl))
        else hitLoop sq shooter ray rest none
      | some best =>
        if 0 < hitT sq ray pl ∧ hitT sq ray pl < best.2 then
          hitLoop sq shooter ray rest (some (id, hitT sq ray pl))
        else hitLoop sq shooter ray rest (some best)

/-- The whole hit-resolution of the shoot handler: the loop run over the
candidate list starting from `hitId = null, closest = Infinity`. -/
def resolveHit (sq : ℚ → ℚ) (shooter : String) (ray : Ray)
    (candidates : List (String × Player)) : Option (String × ℚ) :=
  hitLoop sq shooter ray candidates none

/-- Spawn record `x,z = (Math.random() - 0.5) * 30, y = 1, rotationY = 0, health = 100`:
the spawn object built in the connection handler, with the two
`Math.random()` draws `r1`, `r2` made explicit. -/
def spawnPlayer (r1 r2 : ℚ) : Player :=
  ⟨(r1 - 1/2) * 30, 1, (r2 - 1/2) * 30, 0, 100⟩

/-- One inbound occurrence the single-threaded dispatcher processes: a
socket event (with its `Math.random()` draws made explicit) or a
broadcast-timer tick. -/
inductive Cmd where
  | connect (sid : String) (r1 r2 : ℚ)
  | move (sid : String) (x y z rotationY : ℚ)
  | shoot (sid : String) (ox oy oz dx dy dz r1 r2 : ℚ)
  | placeBuild (sid : String) (ty : String) (x y z : ℚ) (rotY : Option ℚ)
  | disconnect (sid : String)
  | tick
deriving DecidableEq

/-- The messages the server emits (`socket.emit` / `socket.broadcast.emit`
/ `io.emit` / `io.to(..).emit`), with the target recorded for the
targeted ones. -/
inductive Event where
  | initState (selfId : String) (players : List (String × Player)) (builds : List Build)
  | playerJoined (id : String) (p : Player)
  | playerLeft (id : String)
  | playerHit (victimId : String) (newHealth : ℚ)
  | respawn (target : String) (x y z : ℚ)
  | buildPlaced (b : Build)
  | worldState (players : List (String × Player)) (builds : List Build)
deriving DecidableEq

/-- One handler invocation, run to completion: returns the new world and
the events emitted during the invocation, in emission order.
Translated clause by clause from the `io.on('connection', ...)` handlers
and the 20 Hz `setInterval` body of `buildnow.js`. -/
def step (sq : ℚ → ℚ) (w : World) : Cmd → World × List Event
  | .connect sid r1 r2 =>
    let spawn := spawnPlayer r1 r2
    let players' := setP sid spawn w.players
    (⟨players', w.builds, w.nextBuildId⟩,
     [.initState sid players' w.builds, .playerJoined sid spawn])
  | .move sid x y z rotationY =>
    match lookupP sid w.players with
    | none => (w, [])
    | some p =>
      (⟨setP sid ⟨clamp x, clamp y, clamp z, rotationY, p.health⟩ w.players,
        w.builds, w.nextBuildId⟩, [])
  | .shoot sid ox oy oz dx dy dz r1 r2 =>
    match lookupP sid w.players with
    | none => (w, [])
    | some _ =>
      match resolveHit sq sid ⟨ox, oy, oz, dx, dy, dz⟩ w.players with
      | none => (w, [])
      | some (hitId, _) =>
        if hitId = "" then (w, [])   -- `if (hitId)`: the empty string is falsy in JS
        else
          match lookupP hitId w.players with
          | none => (w, [])          -- unreachable: resolveHit only returns ids present in the list
          | some victim =>
            if victim.health - 20 ≤ 0 then
              let fresh : Player :=
                { victim with x := (r1 - 1/2) * 30, y := 1, z := (r2 - 1/2) * 30, health := 100 }
              (⟨setP hitId fresh w.players, w.builds, w.nextBuildId⟩,
               [.respawn hitId fresh.x fresh.y fresh.z, .playerHit hitId fresh.health])
            else
              (⟨setP hitId { victim with health := victim.health - 20 } w.players,
                w.builds, w.nextBuildId⟩,
               [.playerHit hitId (victim.health - 20)])
  | .placeBuild sid ty x y z rotY =>
    let b : Build := ⟨w.nextBuildId, sid, ty, clamp x, clamp y, clamp z, rotY.getD 0⟩
    (⟨w.players, w.builds ++ [b], w.nextBuildId + 1⟩, [.buildPlaced b])
  | .disconnect sid =>
    (⟨removeP sid w.players, w.builds.filter (fun b => b.ownerId ≠ sid), w.nextBuildId⟩,
     [.playerLeft sid])
  | .tick => (w, [.worldState w.players w.builds])

/-- Run a sequence of dispatched occurrences from a world, accumulating
the emitted events in order. -/
def run (sq : ℚ → ℚ) : World → List Cmd → World × List Event
  | w, [] => (w, [])
  | w, c :: cs =>
    let r := step sq w c
    let r' := run sq r.1 cs
    (r'.1, r.2 ++ r'.2)

/-- Well-formedness of the explicit `Math.random()` draws of a command:
`Math.random()` returns a value in `[0, 1)`. -/
def Cmd.WF : Cmd → Prop
  | .connect _ r1 r2 => 0 ≤ r1 ∧ r1 < 1 ∧ 0 ≤ r2 ∧ r2 < 1
  | .shoot _ _ _ _ _ _ _ r1 r2 => 0 ≤ r1 ∧ r1 < 1 ∧ 0 ≤ r2 ∧ r2 < 1
  | _ => True

instance : DecidablePred Cmd.WF := by
  intro c
  cases c <;> dsimp [Cmd.WF] <;> infer_instance

/-- The worlds reachable from server start by dispatching any sequence of
commands whose random draws are well-formed. -/
inductive Reachable (sq : ℚ → ℚ) : World → Prop
  | base : Reachable sq initialWorld
  | next (w : World) (c : Cmd) : Reachable sq w → c.WF → Reachable sq (step sq w c).1

end BuildNow

namespace BuildNow

/-- The per-player part of the world invariant claimed by the spec:
coordinates within the arena bound, health within `[0, 100]`. -/
def PlayerOK (p : Player) : Prop :=
  -50 ≤ p.x ∧ p.x ≤ 50 ∧ -50 ≤ p.y ∧ p.y ≤ 50 ∧ -50 ≤ p.z ∧ p.z ≤ 50 ∧
    0 ≤ p.health ∧ p.health ≤ 100

/-- The build-type enumeration the spec claims. -/
def BuildTypeOK (b : Build) : Prop :=
  b.type = "wall" ∨ b.type = "floor" ∨ b.type = "ramp" ∨ b.type = "roof"

/-- A command whose payload type (if it is a `placeBuild`) belongs to the
enumeration. -/
def typeOKCmd : Cmd → Prop
  | .placeBuild _ ty _ _ _ _ =>
    ty = "wall" ∨ ty = "floor" ∨ ty = "ramp" ∨ ty = "roof"
  | _ => True

/-- The build ids carried by the `buildPlaced` events of a trace, in
emission order. -/
def buildIdsOf (es : List Event) : List ℕ :=
  es.filterMap fun e => match e with | .buildPlaced b => some b.id | _ => none

/-- How many `respawn` events a trace contains. -/
def respawnCount (es : List Event) : ℕ :=
  (es.filter fun e => match e with | .respawn _ _ _ _ => true | _ => false).length

/-- The health values carried by the `playerHit` events of a trace, in order. -/
def hitHealths (es : List Event) : List ℚ :=
  es.filterMap fun e => match e with | .playerHit _ h => some h | _ => none

/-- Sqrt oracle adequate for the concrete scenarios below: the only
discriminant that arises is `1`. -/
def sq5 : ℚ → ℚ := fun q => if q = 1 then 1 else 0

/-- Concrete shooter, standing away from the ray. -/
def pA : Player := ⟨5, 1, 5, 0, 100⟩

/-- Concrete victim at the origin of the arena floor; hit-sphere centre
`(0, 1.5, 0)`. -/
def pB : Player := ⟨0, 1, 0, 0, 100⟩

/-- Two-player world: shooter `"A"`, victim `"B"`. -/
def w0 : World := ⟨[("A", pA), ("B", pB)], [], 1⟩

/-- Session `"A"` fires from `(0, 1.5, −2)` along `+z` straight through `"B"`'s
hit sphere; both respawn draws are `1/2` (so a respawn lands at
`(0, 1, 0)` again). -/
def shootB : Cmd := .shoot "A" 0 (3/2) (-2) 0 0 1 (1/2) (1/2)

/-- Concrete world with one live session `"a"`, used by witnesses. -/
def w1 : World := ⟨[("a", pA)], [], 1⟩

/-- Concrete two-player, two-build world used by the C6 witness. -/
def w2 : World :=
  ⟨[("a", pA), ("b", pB)],
   [⟨1, "a", "wall", 0, 0, 0, 0⟩, ⟨2, "b", "floor", 1, 1, 1, 0⟩], 3⟩

/-- The loop's hit condition for one candidate: not the shooter, the
discriminant is non-negative, and the smaller root is strictly positive. -/
def Hits (sq : ℚ → ℚ) (shooter : String) (ray : Ray) (id : String) (pl : Player) : Prop :=
  id ≠ shooter ∧ 0 ≤ hitDisc ray pl ∧ 0 < hitT sq ray pl

/-- Parameter `t` beats the accumulator: vacuous for `closest = Infinity` (`none`),
a strict improvement otherwise. -/
def accBound (acc : Option (String × ℚ)) (t : ℚ) : Prop :=
  match acc with
  | none => True
  | some x => t < x.2

/-- Candidate list with a duplicate position: `"B"` and `"C"` stand at
the same spot, so the ray of `shootB` meets both at the same parameter
`t = 3/2`; used to witness the tie-break. -/
def lTie : List (String × Player) := [("A", pA), ("B", pB), ("C", pB)]

end BuildNow

namespace BuildNow

/-! ### Basic lemmas about the store operations -/

theorem clamp_bounds (v : ℚ) : -50 ≤ clamp v ∧ clamp v ≤ 50 := by
  unfold clamp ARENA_LIMIT
  exact ⟨le_max_left _ _, max_le (by norm_num) (min_le_left _ _)⟩

theorem spawnPlayer_bounds (r1 r2 : ℚ) (h1 : 0 ≤ r1) (h2 : r1 < 1) (h3 : 0 ≤ r2)
    (h4 : r2 < 1) :
    -15 ≤ (spawnPlayer r1 r2).x ∧ (spawnPlayer r1 r2).x ≤ 15 ∧
      (spawnPlayer r1 r2).y = 1 ∧
      -15 ≤ (spawnPlayer r1 r2).z ∧ (spawnPlayer r1 r2).z ≤ 15 ∧
      (spawnPlayer r1 r2).health = 100 := by
  refine ⟨?_, ?_, rfl, ?_, ?_, rfl⟩ <;> simp only [spawnPlayer] <;> linarith

theorem spawnPlayer_OK (r1 r2 : ℚ) (h1 : 0 ≤ r1) (h2 : r1 < 1) (h3 : 0 ≤ r2)
    (h4 : r2 < 1) : PlayerOK (spawnPlayer r1 r2) := by
  simp only [PlayerOK, spawnPlayer]
  refine ⟨by linarith, by linarith, by norm_num, by norm_num, by linarith, by linarith,
    by norm_num, by norm_num⟩

theorem mem_setP (sid : String) (v : Player) :
    ∀ l (e : String × Player), e ∈ setP sid v l → e = (sid, v) ∨ e ∈ l := by
  intro l
  induction l with
  | nil =>
    intro e h
    simp only [setP, List.mem_singleton] at h
    exact Or.inl h
  | cons hd tl ih =>
    rcases hd with ⟨id, p⟩
    intro e h
    simp only [setP] at h
    by_cases hid : id = sid
    · rw [if_pos hid] at h
      rcases List.mem_cons.mp h with h | h
      · exact Or.inl (by rw [h, hid])
      · exact Or.inr (List.mem_cons_of_mem _ h)
    · rw [if_neg hid] at h
      rcases List.mem_cons.mp h with h | h
      · exact Or.inr (h ▸ List.mem_cons_self _ _)
      · rcases ih e h with h' | h'
        · exact Or.inl h'
        · exact Or.inr (List.mem_cons_of_mem _ h')

theorem lookupP_mem (sid : String) :
    ∀ l (p : Player), lookupP sid l = some p → (sid, p) ∈ l := by
  intro l
  induction l with
  | nil => intro p h; simp [lookupP] at h
  | cons hd tl ih =>
    rcases hd with ⟨id, q⟩
    intro p h
    simp only [lookupP] at h
    by_cases hid : id = sid
    · rw [if_pos hid] at h
      have hq : q = p := by injection h
      rw [← hid, ← hq]
      exact List.mem_cons_self _ _
    · rw [if_neg hid] at h
      exact List.mem_cons_of_mem _ (ih p h)

/-! ### C1: five 20-damage hits, one respawn on the fifth -/

/-- C1.  Five successive shots through `"B"`'s hit sphere, `"B"` starting
at health 100: the emitted event trace is exactly four `playerHit`s at
80, 60, 40, 20, then a `respawn` and a final `playerHit` at 100 — the
`playerHit` health sequence is 80, 60, 40, 20, 100, the first four shots
trigger no respawn and the five shots exactly one, and neither any
emitted event nor any stored world state along the way ever shows a
health that is 0 or negative: the ≤ 0 intermediate value is reset to 100
within the same handler invocation. -/
theorem damage_five_times_single_respawn :
    (run sq5 w0 (List.replicate 5 shootB)).2 =
      [Event.playerHit "B" 80, Event.playerHit "B" 60, Event.playerHit "B" 40,
       Event.playerHit "B" 20, Event.respawn "B" 0 1 0, Event.playerHit "B" 100] ∧
    hitHealths (run sq5 w0 (List.replicate 5 shootB)).2 = [80, 60, 40, 20, 100] ∧
    respawnCount (run sq5 w0 (List.replicate 4 shootB)).2 = 0 ∧
    respawnCount (run sq5 w0 (List.replicate 5 shootB)).2 = 1 ∧
    (([0, 1, 2, 3, 4, 5] : List ℕ).all fun k =>
      ((run sq5 w0 (List.replicate k shootB)).1.players.all fun e =>
        decide (0 < e.2.health))) = true ∧
    ((run sq5 w0 (List.replicate 5 shootB)).2.all fun e =>
      match e with | .playerHit _ h => decide (0 < h) | _ => true) = true := by
  with_unfolding_all decide

/-! ### C2: reachable worlds keep coordinates in [-50,50] and health in [0,100] -/

theorem step_preserves_PlayerOK (sq : ℚ → ℚ) (w : World) (c : Cmd) (hc : c.WF)
    (hw : ∀ e ∈ w.players, PlayerOK e.2) :
    ∀ e ∈ (step sq w c).1.players, PlayerOK e.2 := by
  cases c with
  | connect sid r1 r2 =>
    intro e he
    obtain ⟨h1, h2, h3, h4⟩ := hc
    simp only [step] at he
    rcases mem_setP _ _ _ _ he with h | h
    · rw [h]
      exact spawnPlayer_OK r1 r2 h1 h2 h3 h4
    · exact hw _ h
  | move sid x y z rot =>
    intro e he
    cases hl : lookupP sid w.players with
    | none => simp only [step, hl] at he; exact hw _ he
    | some p =>
      simp only [step, hl] at he
      rcases mem_setP _ _ _ _ he with h | h
      · obtain ⟨c1, c2⟩ := clamp_bounds x
        obtain ⟨c3, c4⟩ := clamp_bounds y
        obtain ⟨c5, c6⟩ := clamp_bounds z
        obtain ⟨_, _, _, _, _, _, h7, h8⟩ := hw _ (lookupP_mem _ _ _ hl)
        rw [h]
        exact ⟨c1, c2, c3, c4, c5, c6, h7, h8⟩
      · exact hw _ h
  | shoot sid ox oy oz dx dy dz r1 r2 =>
    intro e he
    obtain ⟨h1, h2, h3, h4⟩ := hc
    cases hl : lookupP sid w.players with
    | none => simp only [step, hl] at he; exact hw _ he
    | some shooter =>
      cases hr : resolveHit sq sid ⟨ox, oy, oz, dx, dy, dz⟩ w.players with
      | none => simp only [step, hl, hr] at he; exact hw _ he
      | some hit =>
        rcases hit with ⟨hitId, t⟩
        by_cases hemp : hitId = ""
        · simp only [step, hl, hr, if_pos hemp] at he
          exact hw _ he
        · cases hv : lookupP hitId w.players with
          | none => simp only [step, hl, hr, if_neg hemp, hv] at he; exact hw _ he
          | some victim =>
            obtain ⟨v1, v2, v3, v4, v5, v6, v7, v8⟩ := hw _ (lookupP_mem _ _ _ hv)
            by_cases hd : victim.health - 20 ≤ 0
            · simp only [step, hl, hr, if_neg hemp, hv, if_pos hd] at he
              rcases mem_setP _ _ _ _ he with h | h
              · rw [h]
                simp only [PlayerOK]
                refine ⟨by linarith, by linarith, by norm_num, by norm_num,
                  by linarith, by linarith, by norm_num, by norm_num⟩
              · exact hw _ h
            · simp only [step, hl, hr, if_neg hemp, hv, if_neg hd] at he
              rcases mem_setP _ _ _ _ he with h | h
              · rw [h]
                simp only [PlayerOK]
                push_neg at hd
                exact ⟨v1, v2, v3, v4, v5, v6, by linarith, by linarith⟩
              · exact hw _ h
  | placeBuild sid ty x y z rot =>
    intro e he
    simp only [step] at he
    exact hw _ he
  | disconnect sid =>
    intro e he
    simp only [step, removeP] at he
    exact hw _ (List.mem_of_mem_filter he)
  | tick =>
    intro e he
    simp only [step] at he
    exact hw _ he

/-- C2.  In every reachable world, every stored player's x, y and z lie
in `[-50, 50]` and its health in `[0, 100]`; moreover the spawn/respawn
coordinates are drawn from `[-15, 15] × {1} × [-15, 15]` (for random
draws in `[0,1)`), and `clamp` maps every value into `[-50, 50]`. -/
theorem reachable_players_in_bounds (sq : ℚ → ℚ) (w : World) (h : Reachable sq w) :
    (∀ e ∈ w.players, PlayerOK e.2) ∧
    (∀ v : ℚ, -50 ≤ clamp v ∧ clamp v ≤ 50) ∧
    (∀ r1 r2 : ℚ, 0 ≤ r1 → r1 < 1 → 0 ≤ r2 → r2 < 1 →
      -15 ≤ (spawnPlayer r1 r2).x ∧ (spawnPlayer r1 r2).x ≤ 15 ∧
      (spawnPlayer r1 r2).y = 1 ∧
      -15 ≤ (spawnPlayer r1 r2).z ∧ (spawnPlayer r1 r2).z ≤ 15) := by
  refine ⟨?_, clamp_bounds, ?_⟩
  · induction h with
    | base => intro e he; simp [initialWorld] at he
    | next w c hr hwf ih => exact step_preserves_PlayerOK _ _ _ hwf ih
  · intro r1 r2 h1 h2 h3 h4
    obtain ⟨s1, s2, s3, s4, s5, _⟩ := spawnPlayer_bounds r1 r2 h1 h2 h3 h4
    exact ⟨s1, s2, s3, s4, s5⟩

/-- Witness for C2 at the concrete reachable world obtained by a single
connection with both random draws `1/2`. -/
theorem reachable_players_in_bounds_witness :
    (Cmd.connect "a" (1/2) (1/2)).WF ∧
    (∀ e ∈ (step sq5 initialWorld (Cmd.connect "a" (1/2) (1/2))).1.players,
      PlayerOK e.2) := by
  have hwf : (Cmd.connect "a" (1/2) (1/2)).WF := by norm_num [Cmd.WF]
  exact ⟨hwf,
    (reachable_players_in_bounds sq5 _ (Reachable.next _ _ Reachable.base hwf)).1⟩

/-! ### C3: a placeBuild from a dead session is NOT discarded -/

/-- Counterexample to C3.  In the start world the session `"s"` has no
player, yet its `placeBuild` is fully processed: a build is stored, the
counter advances and a `buildPlaced` event is emitted — the handler has
no liveness guard (unlike `move` and `shoot`). -/
theorem placeBuild_dead_session_processed_cx :
    lookupP "s" initialWorld.players = none ∧
    (step sq5 initialWorld (Cmd.placeBuild "s" "wall" 0 0 0 none)).1.builds =
      [⟨1, "s", "wall", 0, 0, 0, 0⟩] ∧
    (step sq5 initialWorld (Cmd.placeBuild "s" "wall" 0 0 0 none)).1.nextBuildId = 2 ∧
    (step sq5 initialWorld (Cmd.placeBuild "s" "wall" 0 0 0 none)).2 =
      [Event.buildPlaced ⟨1, "s", "wall", 0, 0, 0, 0⟩] := by
  with_unfolding_all decide

/-- C3 amended.  The placeBuild handler never discards: for every world
and every command — whether or not the session has a live player — it
appends exactly one build owned by the session, with the current counter
as id and clamped coordinates, increments the counter, and emits
`buildPlaced`. -/
theorem placeBuild_unconditional (sq : ℚ → ℚ) (w : World) (sid ty : String)
    (x y z : ℚ) (rot : Option ℚ) :
    step sq w (.placeBuild sid ty x y z rot) =
      (⟨w.players,
        w.builds ++ [⟨w.nextBuildId, sid, ty, clamp x, clamp y, clamp z, rot.getD 0⟩],
        w.nextBuildId + 1⟩,
       [.buildPlaced ⟨w.nextBuildId, sid, ty, clamp x, clamp y, clamp z, rot.getD 0⟩]) :=
  rfl

/-! ### C9: placeBuild clamps out-of-range coordinates, never rejects -/

/-- C9.  A placeBuild from a live session always succeeds and stores the
command's coordinates clamped to `[-50, 50]`; in particular `x = 1000`
is stored as `50`. -/
theorem placeBuild_clamps (sq : ℚ → ℚ) (w : World) (sid ty : String) (x y z : ℚ)
    (rot : Option ℚ) (p : Player) (h : lookupP sid w.players = some p) :
    (∃ b : Build,
      (step sq w (.placeBuild sid ty x y z rot)).1.builds = w.builds ++ [b] ∧
      b.x = clamp x ∧ b.y = clamp y ∧ b.z = clamp z ∧
      (step sq w (.placeBuild sid ty x y z rot)).2 = [.buildPlaced b]) ∧
    clamp 1000 = 50 := by
  refine ⟨⟨_, rfl, rfl, rfl, rfl, rfl⟩, ?_⟩
  norm_num [clamp, ARENA_LIMIT]

/-- Witness for C9: session `"a"` is live in `w1` and its placeBuild at
`x = 1000` stores `x = 50`. -/
theorem placeBuild_clamps_witness :
    lookupP "a" w1.players = some pA ∧
    ((∃ b : Build,
      (step sq5 w1 (.placeBuild "a" "wall" 1000 2 3 none)).1.builds = w1.builds ++ [b] ∧
      b.x = clamp 1000 ∧ b.y = clamp 2 ∧ b.z = clamp 3 ∧
      (step sq5 w1 (.placeBuild "a" "wall" 1000 2 3 none)).2 = [.buildPlaced b]) ∧
     clamp 1000 = 50) := by
  have h : lookupP "a" w1.players = some pA := by with_unfolding_all decide
  exact ⟨h, placeBuild_clamps sq5 w1 "a" "wall" 1000 2 3 none pA h⟩

/-! ### C6: disconnect removes exactly the session's player and builds -/

theorem removeP_cons (sid id : String) (p : Player) (tl : List (String × Player)) :
    removeP sid ((id, p) :: tl) =
      if id = sid then removeP sid tl else (id, p) :: removeP sid tl := by
  by_cases h : id = sid <;> simp [removeP, List.filter_cons, h]

theorem lookupP_removeP_self (sid : String) :
    ∀ l, lookupP sid (removeP sid l) = none := by
  intro l
  induction l with
  | nil => rfl
  | cons hd tl ih =>
    rcases hd with ⟨id, p⟩
    rw [removeP_cons]
    by_cases hid : id = sid
    · rw [if_pos hid]; exact ih
    · rw [if_neg hid]
      simpa [lookupP, hid] using ih

theorem lookupP_removeP_ne {id sid : String} (h : id ≠ sid) :
    ∀ l, lookupP id (removeP sid l) = lookupP id l := by
  intro l
  induction l with
  | nil => rfl
  | cons hd tl ih =>
    rcases hd with ⟨id', p⟩
    rw [removeP_cons]
    by_cases hid : id' = sid
    · rw [if_pos hid]
      have hne : id' ≠ id := fun he => h (he ▸ hid)
      rw [ih]
      simp [lookupP, hne]
    · rw [if_neg hid]
      by_cases hid' : id' = id <;> simp [lookupP, hid', ih]

/-- C6.  Disconnecting session `sid` removes exactly the player keyed by
`sid` and exactly the builds owned by `sid`: every other player's record
is unchanged, the surviving builds are exactly those with a different
owner, in their original relative order (a sublist of the old sequence),
and only a `playerLeft` event is emitted. -/
theorem disconnect_exact_removal (sq : ℚ → ℚ) (w : World) (sid : String) :
    lookupP sid (step sq w (.disconnect sid)).1.players = none ∧
    (∀ id : String, id ≠ sid →
      lookupP id (step sq w (.disconnect sid)).1.players = lookupP id w.players) ∧
    (step sq w (.disconnect sid)).1.builds = w.builds.filter (fun b => b.ownerId ≠ sid) ∧
    (step sq w (.disconnect sid)).1.builds.Sublist w.builds ∧
    (∀ b ∈ w.builds, b.ownerId ≠ sid → b ∈ (step sq w (.disconnect sid)).1.builds) ∧
    (∀ b ∈ (step sq w (.disconnect sid)).1.builds, b ∈ w.builds ∧ b.ownerId ≠ sid) ∧
    (step sq w (.disconnect sid)).2 = [.playerLeft sid] := by
  refine ⟨lookupP_removeP_self sid w.players,
    fun id hid => lookupP_removeP_ne hid w.players, rfl, List.filter_sublist _,
    ?_, ?_, rfl⟩
  · intro b hb hob
    simp only [step]
    exact List.mem_filter.mpr ⟨hb, by simpa using hob⟩
  · intro b hb
    simp only [step] at hb
    have hm := List.mem_filter.mp hb
    exact ⟨hm.1, by simpa using hm.2⟩

/-- Witness for C6 at the concrete world `w2`, disconnecting `"a"`. -/
theorem disconnect_exact_removal_witness :
    lookupP "a" (step sq5 w2 (.disconnect "a")).1.players = none ∧
    (∀ id : String, id ≠ "a" →
      lookupP id (step sq5 w2 (.disconnect "a")).1.players = lookupP id w2.players) ∧
    (step sq5 w2 (.disconnect "a")).1.builds = w2.builds.filter (fun b => b.ownerId ≠ "a") ∧
    (step sq5 w2 (.disconnect "a")).1.builds.Sublist w2.builds ∧
    (∀ b ∈ w2.builds, b.ownerId ≠ "a" → b ∈ (step sq5 w2 (.disconnect "a")).1.builds) ∧
    (∀ b ∈ (step sq5 w2 (.disconnect "a")).1.builds, b ∈ w2.builds ∧ b.ownerId ≠ "a") ∧
    (step sq5 w2 (.disconnect "a")).2 = [.playerLeft "a"] :=
  disconnect_exact_removal sq5 w2 "a"

/-! ### C8: zero-length direction is a universal non-hit, state unchanged -/

theorem hitLoop_zero_direction (sq : ℚ → ℚ) (sid : String) (ox oy oz : ℚ) :
    ∀ (l : List (String × Player)) (acc : Option (String × ℚ)),
      hitLoop sq sid ⟨ox, oy, oz, 0, 0, 0⟩ l acc = acc := by
  intro l
  induction l with
  | nil => intro acc; rfl
  | cons hd tl ih =>
    intro acc
    rcases hd with ⟨id, pl⟩
    have ha : hitA ⟨ox, oy, oz, 0, 0, 0⟩ = 0 := by simp [hitA]
    have hb : hitB ⟨ox, oy, oz, 0, 0, 0⟩ pl = 0 := by simp [hitB]
    have hdisc : hitDisc ⟨ox, oy, oz, 0, 0, 0⟩ pl = 0 := by
      rw [hitDisc, hb, ha]; ring
    have ht : hitT sq ⟨ox, oy, oz, 0, 0, 0⟩ pl = 0 := by
      rw [hitT, hb, ha]
      simp
    by_cases hid : id = sid
    · simp [hitLoop, hid, ih]
    · cases acc with
      | none => simp [hitLoop, hid, hdisc, ht, ih]
      | some best => simp [hitLoop, hid, hdisc, ht, ih]

/-- C8.  A shoot command whose direction vector is zero (so the quadratic
coefficient `a` is 0) hits nobody — hit resolution returns no victim on
any candidate list — and leaves the world unchanged, emitting nothing. -/
theorem shoot_zero_direction_noop (sq : ℚ → ℚ) (w : World) (sid : String)
    (ox oy oz r1 r2 : ℚ) :
    step sq w (.shoot sid ox oy oz 0 0 0 r1 r2) = (w, []) ∧
    (∀ l, resolveHit sq sid ⟨ox, oy, oz, 0, 0, 0⟩ l = none) := by
  have hz := hitLoop_zero_direction sq sid ox oy oz
  constructor
  · cases hl : lookupP sid w.players with
    | none => simp [step, hl]
    | some s => simp [step, hl, resolveHit, hz]
  · intro l
    exact hz l none

/-! ### C5: build ids strictly increase and are never reused -/

/-- A shoot handler invocation never touches the build store or the id
counter and never emits a `buildPlaced`. -/
theorem step_shoot_frame (sq : ℚ → ℚ) (w : World) (sid : String)
    (ox oy oz dx dy dz r1 r2 : ℚ) :
    (step sq w (.shoot sid ox oy oz dx dy dz r1 r2)).1.builds = w.builds ∧
    (step sq w (.shoot sid ox oy oz dx dy dz r1 r2)).1.nextBuildId = w.nextBuildId ∧
    buildIdsOf (step sq w (.shoot sid ox oy oz dx dy dz r1 r2)).2 = [] := by
  cases hl : lookupP sid w.players with
  | none => simp [step, hl, buildIdsOf]
  | some shooter =>
    cases hr : resolveHit sq sid ⟨ox, oy, oz, dx, dy, dz⟩ w.players with
    | none => simp [step, hl, hr, buildIdsOf]
    | some hit =>
      rcases hit with ⟨hitId, t⟩
      by_cases hemp : hitId = ""
      · simp [step, hl, hr, hemp, buildIdsOf]
      · cases hv : lookupP hitId w.players with
        | none => simp [step, hl, hr, hemp, hv, buildIdsOf]
        | some victim =>
          by_cases hd : victim.health - 20 ≤ 0
          · simp [step, hl, hr, hemp, hv, hd, buildIdsOf]
          · simp [step, hl, hr, hemp, hv, hd, buildIdsOf]

/-- Any single handler invocation either leaves the counter alone and
emits no build id, or (exactly for placeBuild) emits precisely the
current counter value and increments the counter. -/
theorem step_buildIds (sq : ℚ → ℚ) (w : World) (c : Cmd) :
    (buildIdsOf (step sq w c).2 = [] ∧ (step sq w c).1.nextBuildId = w.nextBuildId) ∨
    (buildIdsOf (step sq w c).2 = [w.nextBuildId] ∧
      (step sq w c).1.nextBuildId = w.nextBuildId + 1) := by
  cases c with
  | connect sid r1 r2 => exact Or.inl ⟨rfl, rfl⟩
  | move sid x y z rot =>
    left
    cases hl : lookupP sid w.players with
    | none => simp [step, hl, buildIdsOf]
    | some p => simp [step, hl, buildIdsOf]
  | shoot sid ox oy oz dx dy dz r1 r2 =>
    have h := step_shoot_frame sq w sid ox oy oz dx dy dz r1 r2
    exact Or.inl ⟨h.2.2, h.2.1⟩
  | placeBuild sid ty x y z rot => exact Or.inr ⟨rfl, rfl⟩
  | disconnect sid => exact Or.inl ⟨rfl, rfl⟩
  | tick => exact Or.inl ⟨rfl, rfl⟩

/-- Along any run: the counter never decreases, every emitted build id
lies in `[counter at start, counter at the end)`, and the emitted build
ids are pairwise strictly increasing in emission order. -/
theorem run_buildIds (sq : ℚ → ℚ) :
    ∀ (cmds : List Cmd) (w : World),
      w.nextBuildId ≤ (run sq w cmds).1.nextBuildId ∧
      (∀ i ∈ buildIdsOf (run sq w cmds).2,
        w.nextBuildId ≤ i ∧ i < (run sq w cmds).1.nextBuildId) ∧
      List.Pairwise (· < ·) (buildIdsOf (run sq w cmds).2) := by
  intro cmds
  induction cmds with
  | nil =>
    intro w
    refine ⟨le_refl _, ?_, ?_⟩ <;> simp [run, buildIdsOf]
  | cons c cs ih =>
    intro w
    obtain ⟨ih1, ih2, ih3⟩ := ih (step sq w c).1
    have hrun : run sq w (c :: cs) =
        ((run sq (step sq w c).1 cs).1,
         (step sq w c).2 ++ (run sq (step sq w c).1 cs).2) := rfl
    have happ : buildIdsOf ((step sq w c).2 ++ (run sq (step sq w c).1 cs).2) =
        buildIdsOf (step sq w c).2 ++ buildIdsOf (run sq (step sq w c).1 cs).2 :=
      List.filterMap_append _ _ _
    rcases step_buildIds sq w c with ⟨he, hn⟩ | ⟨he, hn⟩
    · refine ⟨by rw [hrun]; exact hn ▸ ih1, ?_, ?_⟩
      · intro i hi
        rw [hrun] at hi ⊢
        rw [happ, he, List.nil_append] at hi
        obtain ⟨hi1, hi2⟩ := ih2 i hi
        exact ⟨hn ▸ hi1, hi2⟩
      · rw [hrun]
        rw [happ, he, List.nil_append]
        exact ih3
    · refine ⟨?_, ?_, ?_⟩
      · rw [hrun]
        calc w.nextBuildId ≤ w.nextBuildId + 1 := Nat.le_succ _
        _ = (step sq w c).1.nextBuildId := hn.symm
        _ ≤ _ := ih1
      · intro i hi
        rw [hrun] at hi ⊢
        rw [happ, he] at hi
        rcases List.mem_append.mp hi with hi | hi
        · have hieq : i = w.nextBuildId := List.mem_singleton.mp hi
          refine ⟨le_of_eq hieq.symm, ?_⟩
          calc i = w.nextBuildId := hieq
          _ < w.nextBuildId + 1 := Nat.lt_succ_self _
          _ = (step sq w c).1.nextBuildId := hn.symm
          _ ≤ _ := ih1
        · obtain ⟨hi1, hi2⟩ := ih2 i hi
          refine ⟨?_, hi2⟩
          calc w.nextBuildId ≤ w.nextBuildId + 1 := Nat.le_succ _
          _ = (step sq w c).1.nextBuildId := hn.symm
          _ ≤ i := hi1
      · rw [hrun]
        rw [happ, he]
        refine (List.pairwise_append).mpr ⟨List.pairwise_singleton _ _, ih3, ?_⟩
        intro i hi j hj
        have hieq : i = w.nextBuildId := List.mem_singleton.mp hi
        have hj1 := (ih2 j hj).1
        calc i = w.nextBuildId := hieq
        _ < w.nextBuildId + 1 := Nat.lt_succ_self _
        _ = (step sq w c).1.nextBuildId := hn.symm
        _ ≤ j := hj1

/-- C5.  Over any command sequence from server start, the build ids
carried by the emitted `buildPlaced` events are pairwise strictly
increasing in emission order — each newly assigned id exceeds every
previously assigned one — and hence no id is ever reused, regardless of
intervening disconnect-driven build removals. -/
theorem build_ids_strictly_increasing (sq : ℚ → ℚ) (cmds : List Cmd) :
    List.Pairwise (· < ·) (buildIdsOf (run sq initialWorld cmds).2) ∧
    (buildIdsOf (run sq initialWorld cmds).2).Nodup := by
  have h := (run_buildIds sq cmds initialWorld).2.2
  exact ⟨h, h.imp ne_of_lt⟩

/-! ### C7: build types are stored verbatim, not validated -/

/-- Counterexample to C7.  One reachable step from the start world stores
a build whose type `"tower"` is outside the enumeration: the handler
copies `data.type` verbatim without validation. -/
theorem build_type_unvalidated_cx :
    Reachable sq5 (step sq5 initialWorld (Cmd.placeBuild "s" "tower" 0 0 0 none)).1 ∧
    (step sq5 initialWorld (Cmd.placeBuild "s" "tower" 0 0 0 none)).1.builds.map
      Build.type = ["tower"] ∧
    (⟨1, "s", "tower", 0, 0, 0, 0⟩ : Build) ∈
      (step sq5 initialWorld (Cmd.placeBuild "s" "tower" 0 0 0 none)).1.builds ∧
    ¬ BuildTypeOK ⟨1, "s", "tower", 0, 0, 0, 0⟩ := by
  refine ⟨Reachable.next _ _ Reachable.base trivial, ?_, ?_, ?_⟩
  · with_unfolding_all decide
  · with_unfolding_all decide
  · simp [BuildTypeOK]

theorem step_preserves_BuildTypeOK (sq : ℚ → ℚ) (w : World) (c : Cmd)
    (hc : typeOKCmd c) (hw : ∀ b ∈ w.builds, BuildTypeOK b) :
    ∀ b ∈ (step sq w c).1.builds, BuildTypeOK b := by
  cases c with
  | connect sid r1 r2 => exact hw
  | move sid x y z rot =>
    intro b hb
    cases hl : lookupP sid w.players with
    | none => simp only [step, hl] at hb; exact hw _ hb
    | some p => simp only [step, hl] at hb; exact hw _ hb
  | shoot sid ox oy oz dx dy dz r1 r2 =>
    intro b hb
    rw [(step_shoot_frame sq w sid ox oy oz dx dy dz r1 r2).1] at hb
    exact hw _ hb
  | placeBuild sid ty x y z rot =>
    intro b hb
    simp only [step] at hb
    rcases List.mem_append.mp hb with hb | hb
    · exact hw _ hb
    · have hb' : b = ⟨w.nextBuildId, sid, ty, clamp x, clamp y, clamp z, rot.getD 0⟩ :=
        List.mem_singleton.mp hb
      rw [hb']
      exact hc
  | disconnect sid =>
    intro b hb
    simp only [step] at hb
    exact hw _ (List.mem_of_mem_filter hb)
  | tick => exact hw

/-- C7 amended.  A stored build's type is exactly the type string of the
command that created it, with no validation by the handler; consequently
every build of every world reached from the start lies in the
`{wall, floor, ramp, roof}` enumeration if (and only as long as) every
issued placeBuild command uses a type from that enumeration. -/
theorem build_types_enum_if_commands_enum (sq : ℚ → ℚ) (cmds : List Cmd)
    (hc : ∀ c ∈ cmds, typeOKCmd c) :
    ∀ b ∈ (run sq initialWorld cmds).1.builds, BuildTypeOK b := by
  suffices h : ∀ (cs : List Cmd) (w : World), (∀ c ∈ cs, typeOKCmd c) →
      (∀ b ∈ w.builds, BuildTypeOK b) → ∀ b ∈ (run sq w cs).1.builds, BuildTypeOK b by
    exact h cmds initialWorld hc (by intro b hb; simp [initialWorld] at hb)
  intro cs
  induction cs with
  | nil => intro w _ hw; exact hw
  | cons c cs ih =>
    intro w hcs hw
    exact ih (step sq w c).1 (fun d hd => hcs d (List.mem_cons_of_mem _ hd))
      (step_preserves_BuildTypeOK sq w c (hcs c (List.mem_cons_self _ _)) hw)

/-! ### C4 and C10: correctness of hit resolution -/

/-- Full characterization of the shoot handler's selection loop, by
induction on the candidate list with a generalized accumulator: a result
`some (i, t)` either is the untouched accumulator (and then no candidate
in the list beats `t`), or comes from a candidate in the list whose hit
parameter is `t`, beats the incoming accumulator, is strictly below
every hit before it (the strict `t < closest` comparison) and not above
any hit after it. -/
theorem hitLoop_characterization (sq : ℚ → ℚ) (shooter : String) (ray : Ray) :
    ∀ (l : List (String × Player)) (acc : Option (String × ℚ)) (i : String) (t : ℚ),
      hitLoop sq shooter ray l acc = some (i, t) →
      (acc = some (i, t) ∧
        ∀ j q, (j, q) ∈ l → Hits sq shooter ray j q → t ≤ hitT sq ray q) ∨
      (∃ pre p post, l = pre ++ (i, p) :: post ∧ Hits sq shooter ray i p ∧
        hitT sq ray p = t ∧
        (∀ j q, (j, q) ∈ pre → Hits sq shooter ray j q → t < hitT sq ray q) ∧
        accBound acc t ∧
        (∀ j q, (j, q) ∈ post → Hits sq shooter ray j q → t ≤ hitT sq ray q)) := by
  intro l
  induction l with
  | nil =>
    intro acc i t h
    simp only [hitLoop] at h
    exact Or.inl ⟨h, fun j q hm _ => absurd hm (List.not_mem_nil _)⟩
  | cons hd tl ih =>
    intro acc i t h
    rcases hd with ⟨id, pl⟩
    by_cases hid : id = shooter
    · simp only [hitLoop, if_pos hid] at h
      rcases ih acc i t h with ⟨ha, hmin⟩ |
        ⟨pre, p, post, heq, hh, hT, hpre, hacc, hpost⟩
      · refine Or.inl ⟨ha, ?_⟩
        intro j q hm hq
        rcases List.mem_cons.mp hm with hm | hm
        · injection hm with h1 h2
          subst h1
          exact absurd hid hq.1
        · exact hmin j q hm hq
      · refine Or.inr ⟨(id, pl) :: pre, p, post, by rw [heq]; rfl, hh, hT, ?_, hacc, hpost⟩
        intro j q hm hq
        rcases List.mem_cons.mp hm with hm | hm
        · injection hm with h1 h2
          subst h1
          exact absurd hid hq.1
        · exact hpre j q hm hq
    · by_cases hdn : hitDisc ray pl < 0
      · simp only [hitLoop, if_neg hid, if_pos hdn] at h
        rcases ih acc i t h with ⟨ha, hmin⟩ |
          ⟨pre, p, post, heq, hh, hT, hpre, hacc, hpost⟩
        · refine Or.inl ⟨ha, ?_⟩
          intro j q hm hq
          rcases List.mem_cons.mp hm with hm | hm
          · injection hm with h1 h2
            subst h2
            exact absurd hq.2.1 (not_le.mpr hdn)
          · exact hmin j q hm hq
        · refine Or.inr ⟨(id, pl) :: pre, p, post, by rw [heq]; rfl, hh, hT, ?_, hacc, hpost⟩
          intro j q hm hq
          rcases List.mem_cons.mp hm with hm | hm
          · injection hm with h1 h2
            subst h2
            exact absurd hq.2.1 (not_le.mpr hdn)
          · exact hpre j q hm hq
      · have hdn' : 0 ≤ hitDisc ray pl := not_lt.mp hdn
        cases acc with
        | none =>
          by_cases h0 : 0 < hitT sq ray pl
          · simp only [hitLoop, if_neg hid, if_neg hdn, if_pos h0] at h
            rcases ih (some (id, hitT sq ray pl)) i t h with ⟨ha, hmin⟩ |
              ⟨pre, p, post, heq, hh, hT, hpre, hacc, hpost⟩
            · injection ha with ha'
              injection ha' with hai hat
              subst hai
              subst hat
              exact Or.inr ⟨[], pl, tl, rfl, ⟨hid, hdn', h0⟩, rfl,
                fun j q hm _ => absurd hm (List.not_mem_nil _), trivial,
                fun j q hm hq => hmin j q hm hq⟩
            · refine Or.inr ⟨(id, pl) :: pre, p, post, by rw [heq]; rfl, hh, hT, ?_,
                trivial, hpost⟩
              intro j q hm hq
              rcases List.mem_cons.mp hm with hm | hm
              · injection hm with h1 h2
                subst h2
                exact hacc
              · exact hpre j q hm hq
          · simp only [hitLoop, if_neg hid, if_neg hdn, if_neg h0] at h
            rcases ih none i t h with ⟨ha, _⟩ |
              ⟨pre, p, post, heq, hh, hT, hpre, _, hpost⟩
            · exact absurd ha (by simp)
            · refine Or.inr ⟨(id, pl) :: pre, p, post, by rw [heq]; rfl, hh, hT, ?_,
                trivial, hpost⟩
              intro j q hm hq
              rcases List.mem_cons.mp hm with hm | hm
              · injection hm with h1 h2
                subst h2
                exact absurd hq.2.2 h0
              · exact hpre j q hm hq
        | some best =>
          by_cases hcond : 0 < hitT sq ray pl ∧ hitT sq ray pl < best.2
          · simp only [hitLoop, if_neg hid, if_neg hdn, if_pos hcond] at h
            rcases ih (some (id, hitT sq ray pl)) i t h with ⟨ha, hmin⟩ |
              ⟨pre, p, post, heq, hh, hT, hpre, hacc, hpost⟩
            · injection ha with ha'
              injection ha' with hai hat
              subst hai
              subst hat
              exact Or.inr ⟨[], pl, tl, rfl, ⟨hid, hdn', hcond.1⟩, rfl,
                fun j q hm _ => absurd hm (List.not_mem_nil _), hcond.2,
                fun j q hm hq => hmin j q hm hq⟩
            · refine Or.inr ⟨(id, pl) :: pre, p, post, by rw [heq]; rfl, hh, hT, ?_,
                lt_trans hacc hcond.2, hpost⟩
              intro j q hm hq
              rcases List.mem_cons.mp hm with hm | hm
              · injection hm with h1 h2
                subst h2
                exact hacc
              · exact hpre j q hm hq
          · simp only [hitLoop, if_neg hid, if_neg hdn, if_neg hcond] at h
            rcases ih (some best) i t h with ⟨ha, hmin⟩ |
              ⟨pre, p, post, heq, hh, hT, hpre, hacc, hpost⟩
            · injection ha with hbest
              have hb2 : best.2 = t := by rw [hbest]
              refine Or.inl ⟨by rw [hbest], ?_⟩
              intro j q hm hq
              rcases List.mem_cons.mp hm with hm | hm
              · injection hm with h1 h2
                subst h2
                have hle : best.2 ≤ hitT sq ray q :=
                  not_lt.mp (fun hlt => hcond ⟨hq.2.2, hlt⟩)
                exact hb2 ▸ hle
              · exact hmin j q hm hq
            · refine Or.inr ⟨(id, pl) :: pre, p, post, by rw [heq]; rfl, hh, hT, ?_,
                hacc, hpost⟩
              intro j q hm hq
              rcases List.mem_cons.mp hm with hm | hm
              · injection hm with h1 h2
                subst h2
                have hle' : best.2 ≤ hitT sq ray q :=
                  not_lt.mp (fun hlt => hcond ⟨hq.2.2, hlt⟩)
                exact lt_of_lt_of_le hacc hle'
              · exact hpre j q hm hq

theorem hitLoop_nohit (sq : ℚ → ℚ) (shooter : String) (ray : Ray) :
    ∀ (l : List (String × Player)) (acc : Option (String × ℚ)),
      (∀ j q, (j, q) ∈ l → ¬ Hits sq shooter ray j q) →
      hitLoop sq shooter ray l acc = acc := by
  intro l
  induction l with
  | nil => intro acc _; rfl
  | cons hd tl ih =>
    intro acc hno
    rcases hd with ⟨id, pl⟩
    have hno' : ∀ j q, (j, q) ∈ tl → ¬ Hits sq shooter ray j q :=
      fun j q hm => hno j q (List.mem_cons_of_mem _ hm)
    by_cases hid : id = shooter
    · simp only [hitLoop, if_pos hid]
      exact ih acc hno'
    · by_cases hdn : hitDisc ray pl < 0
      · simp only [hitLoop, if_neg hid, if_pos hdn]
        exact ih acc hno'
      · have hd0 : 0 ≤ hitDisc ray pl := not_lt.mp hdn
        have hnot : ¬ 0 < hitT sq ray pl :=
          fun h0 => hno id pl (List.mem_cons_self _ _) ⟨hid, hd0, h0⟩
        cases acc with
        | none =>
          simp only [hitLoop, if_neg hid, if_neg hdn, if_neg hnot]
          exact ih none hno'
        | some best =>
          have hnc : ¬(0 < hitT sq ray pl ∧ hitT sq ray pl < best.2) :=
            fun hc => hnot hc.1
          simp only [hitLoop, if_neg hid, if_neg hdn, if_neg hnc]
          exact ih (some best) hno'

/-- C4.  Soundness, minimality and completeness of hit resolution: a
returned victim is a non-shooter candidate whose discriminant is
non-negative and whose smaller root `t` is strictly positive, and its
`t` is minimal among all such candidates; if no candidate qualifies the
result is no victim; and a qualifying single candidate is always
returned. -/
theorem resolveHit_correct (sq : ℚ → ℚ) (shooter : String) (ray : Ray)
    (l : List (String × Player)) :
    (∀ i t, resolveHit sq shooter ray l = some (i, t) →
      i ≠ shooter ∧ 0 < t ∧
      (∃ p, (i, p) ∈ l ∧ 0 ≤ hitDisc ray p ∧ hitT sq ray p = t) ∧
      (∀ j q, (j, q) ∈ l → j ≠ shooter → 0 ≤ hitDisc ray q → 0 < hitT sq ray q →
        t ≤ hitT sq ray q)) ∧
    ((∀ j q, (j, q) ∈ l → j ≠ shooter → ¬(0 ≤ hitDisc ray q ∧ 0 < hitT sq ray q)) →
      resolveHit sq shooter ray l = none) ∧
    (∀ i p, i ≠ shooter → 0 ≤ hitDisc ray p → 0 < hitT sq ray p →
      resolveHit sq shooter ray [(i, p)] = some (i, hitT sq ray p)) := by
  refine ⟨?_, ?_, ?_⟩
  · intro i t h
    rcases hitLoop_characterization sq shooter ray l none i t h with ⟨ha, _⟩ |
      ⟨pre, p, post, heq, hh, hT, hpre, _, hpost⟩
    · exact absurd ha (by simp)
    · refine ⟨hh.1, hT ▸ hh.2.2, ⟨p, ?_, hh.2.1, hT⟩, ?_⟩
      · rw [heq]
        exact List.mem_append_right _ (List.mem_cons_self _ _)
      · intro j q hm hq1 hq2 hq3
        rw [heq] at hm
        rcases List.mem_append.mp hm with hm | hm
        · exact le_of_lt (hpre j q hm ⟨hq1, hq2, hq3⟩)
        · rcases List.mem_cons.mp hm with hm | hm
          · injection hm with h1 h2
            subst h2
            exact le_of_eq hT.symm
          · exact hpost j q hm ⟨hq1, hq2, hq3⟩
  · intro hno
    exact hitLoop_nohit sq shooter ray l none
      (fun j q hm hh => hno j q hm hh.1 ⟨hh.2.1, hh.2.2⟩)
  · intro i p h1 h2 h3
    simp only [resolveHit, hitLoop, if_neg h1, if_neg (not_lt.mpr h2), if_pos h3]

/-- Witness for C4: the singleton-candidate clause at the concrete ray
through `"B"`'s sphere. -/
theorem resolveHit_correct_witness :
    ("B" : String) ≠ "A" ∧ 0 ≤ hitDisc ⟨0, 3/2, -2, 0, 0, 1⟩ pB ∧
    0 < hitT sq5 ⟨0, 3/2, -2, 0, 0, 1⟩ pB ∧
    resolveHit sq5 "A" ⟨0, 3/2, -2, 0, 0, 1⟩ [("B", pB)] =
      some ("B", hitT sq5 ⟨0, 3/2, -2, 0, 0, 1⟩ pB) := by
  have h1 : ("B" : String) ≠ "A" := by decide
  have h2 : 0 ≤ hitDisc ⟨0, 3/2, -2, 0, 0, 1⟩ pB := by with_unfolding_all decide
  have h3 : 0 < hitT sq5 ⟨0, 3/2, -2, 0, 0, 1⟩ pB := by with_unfolding_all decide
  exact ⟨h1, h2, h3,
    (resolveHit_correct sq5 "A" ⟨0, 3/2, -2, 0, 0, 1⟩ [("B", pB)]).2.2 "B" pB h1 h2 h3⟩

/-- C10.  The returned victim is the earliest candidate, in iteration
order, among those attaining the minimal positive `t`: strictly smaller
than every qualifying hit before it (the `t < closest` comparison is
strict, so an equal later `t` never replaces the winner) and no larger
than every qualifying hit after it.  Hit resolution being a function of
the candidate list, the selection is deterministic. -/
theorem resolveHit_earliest_on_tie (sq : ℚ → ℚ) (shooter : String) (ray : Ray)
    (l : List (String × Player)) (i : String) (t : ℚ)
    (h : resolveHit sq shooter ray l = some (i, t)) :
    ∃ pre p post, l = pre ++ (i, p) :: post ∧ i ≠ shooter ∧ 0 ≤ hitDisc ray p ∧
      hitT sq ray p = t ∧ 0 < t ∧
      (∀ j q, (j, q) ∈ pre → j ≠ shooter → 0 ≤ hitDisc ray q → 0 < hitT sq ray q →
        t < hitT sq ray q) ∧
      (∀ j q, (j, q) ∈ post → j ≠ shooter → 0 ≤ hitDisc ray q → 0 < hitT sq ray q →
        t ≤ hitT sq ray q) := by
  rcases hitLoop_characterization sq shooter ray l none i t h with ⟨ha, _⟩ |
    ⟨pre, p, post, heq, hh, hT, hpre, _, hpost⟩
  · exact absurd ha (by simp)
  · exact ⟨pre, p, post, heq, hh.1, hh.2.1, hT, hT ▸ hh.2.2,
      fun j q hm h1 h2 h3 => hpre j q hm ⟨h1, h2, h3⟩,
      fun j q hm h1 h2 h3 => hpost j q hm ⟨h1, h2, h3⟩⟩

/-- Witness for C10 at the tie list `lTie`: `"B"` and `"C"` share the
same position (hence the same `t = 3/2`) and the earlier `"B"` wins. -/
theorem resolveHit_earliest_on_tie_witness :
    resolveHit sq5 "A" ⟨0, 3/2, -2, 0, 0, 1⟩ lTie = some ("B", 3/2) ∧
    (∃ pre p post, lTie = pre ++ ("B", p) :: post ∧ ("B" : String) ≠ "A" ∧
      0 ≤ hitDisc ⟨0, 3/2, -2, 0, 0, 1⟩ p ∧
      hitT sq5 ⟨0, 3/2, -2, 0, 0, 1⟩ p = 3/2 ∧ 0 < (3/2 : ℚ) ∧
      (∀ j q, (j, q) ∈ pre → j ≠ "A" → 0 ≤ hitDisc ⟨0, 3/2, -2, 0, 0, 1⟩ q →
        0 < hitT sq5 ⟨0, 3/2, -2, 0, 0, 1⟩ q →
        (3/2 : ℚ) < hitT sq5 ⟨0, 3/2, -2, 0, 0, 1⟩ q) ∧
      (∀ j q, (j, q) ∈ post → j ≠ "A" → 0 ≤ hitDisc ⟨0, 3/2, -2, 0, 0, 1⟩ q →
        0 < hitT sq5 ⟨0, 3/2, -2, 0, 0, 1⟩ q →
        (3/2 : ℚ) ≤ hitT sq5 ⟨0, 3/2, -2, 0, 0, 1⟩ q)) := by
  have h : resolveHit sq5 "A" ⟨0, 3/2, -2, 0, 0, 1⟩ lTie = some ("B", 3/2) := by
    with_unfolding_all decide
  exact ⟨h, resolveHit_earliest_on_tie sq5 "A" ⟨0, 3/2, -2, 0, 0, 1⟩ lTie "B" (3/2) h⟩

/-- Witness for C7 (amended) with a connect followed by an enumerated
placeBuild. -/
theorem build_types_enum_witness :
    (∀ c ∈ [Cmd.connect "a" (1/2) (1/2), Cmd.placeBuild "a" "wall" 0 0 0 none],
      typeOKCmd c) ∧
    (∀ b ∈ (run sq5 initialWorld
        [Cmd.connect "a" (1/2) (1/2), Cmd.placeBuild "a" "wall" 0 0 0 none]).1.builds,
      BuildTypeOK b) := by
  have hc : ∀ c ∈ [Cmd.connect "a" (1/2) (1/2), Cmd.placeBuild "a" "wall" 0 0 0 none],
      typeOKCmd c := by
    intro c hc
    rcases List.mem_cons.mp hc with h | h
    · rw [h]; trivial
    · rcases List.mem_cons.mp h with h' | h'
      · rw [h']; exact Or.inl rfl
      · simp at h'
  exact ⟨hc, build_types_enum_if_commands_enum sq5 _ hc⟩

end BuildNow
